import Mathlib

/-!
Verification of the `uxunk` store engine (`src/library/uxunk.js`): a minimal
redux-style state container.  The development shallowly embeds the five exported
functions — `compose`, `applyMiddleware`, `bindActionCreators`,
`combineReducers`, `createStore` (with its inner `dispatch`, `getState`,
`subscribe`, `unsubscribe`, `replaceReducer`) — and proves or refutes the
spec's claims about them.

Modelling conventions:
* JS values that flow through reducers and actions are the pure tree `JVal`.
* The mutable store cell (`currentState` / `currentReducer` /
  `currentListeners`) is the record `StoreState`; every operation that the JS
  code performs by mutation is explicit state passing here.
* Side effects that the claims observe (a thunk being invoked, a listener
  being notified, middleware logging) are recorded in an explicit event list.
* Listeners and thunks are JS function values; only their identity matters to
  the engine (`indexOf` comparisons), so they are modelled by `Nat` ids.
* JS exceptions are `Except JSError`.
* `getState`'s aliasing behaviour (`JSON.parse(JSON.stringify(currentState))`)
  needs a mutable-object model, so a separate section embeds a heap of
  addressable objects and a fuel-bounded deep copy.
-/

namespace Uxunk

/-- A JSON-style JS value (the shape of states and plain actions). -/
inductive JVal where
  | undefined
  | jnull
  | jbool (b : Bool)
  | jnum (n : Int)
  | jstr (s : String)
  | jobj (fields : List (String × JVal))

/-- JS property read `o[k]`: the first binding of `k`, `undefined` if absent
(JS objects have unique keys, so first = only). -/
def jsGet (o : List (String × JVal)) (k : String) : JVal :=
  match o.lookup k with
  | some v => v
  | none => .undefined

/-- JS truthiness of a plain value (`!v` is `!truthy v`). -/
def JVal.truthy : JVal → Bool
  | .undefined => false
  | .jnull => false
  | .jbool b => b
  | .jnum n => n != 0
  | .jstr s => s != ""
  | .jobj _ => true

/-- A JS exception (`throw Error(message)`). -/
structure JSError where
  message : String
deriving DecidableEq

/-- Registered listeners are compared by function identity (`indexOf`), so a
listener is just its identity. -/
abbrev ListenerId := Nat

/-- A reducer `(state, action) -> state`; it may throw. -/
abbrev Reducer := JVal → JVal → Except JSError JVal

/-- The argument passed to `dispatch`: `typeof action === 'function'`
distinguishes a callable thunk (identified by function identity) from any
other value. -/
inductive Action where
  | thunk (id : Nat)
  | plain (v : JVal)

/-- Observable side effects of the engine, in the order they happen. -/
inductive Event where
  | invokeThunk (id : Nat)
  | reducerRun
  | notify (l : ListenerId)
  | log (s : String)
deriving DecidableEq

/-- What `dispatch` returns: the sentinel `false` (thunk branch) or the
action value itself. -/
inductive RetVal where
  | retFalse
  | retAction (a : JVal)

/-- The mutable fields closed over by `createStore`. -/
structure StoreState where
  currentState : JVal
  currentReducer : Reducer
  currentListeners : List ListenerId

/-- Result of one `dispatch` call: the returned value (or the exception that
propagated), the store fields after the call, and the emitted effects. -/
structure DispatchOut where
  result : Except JSError RetVal
  store : StoreState
  events : List Event

/-- `dispatch(action)` from `createStore`:
if the action is callable, invoke it and return `false` (built-in thunk
support); otherwise run the reducer — a thrown exception propagates before
`currentState` is assigned and before any listener runs — then assign
`currentState` and call every listener in list order, returning the action. -/
def dispatch (st : StoreState) (a : Action) : DispatchOut :=
  match a with
  | .thunk id => ⟨.ok .retFalse, st, [.invokeThunk id]⟩
  | .plain v =>
    match st.currentReducer st.currentState v with
    | .error e => ⟨.error e, st, []⟩
    | .ok s' =>
      ⟨.ok (.retAction v), { st with currentState := s' },
        .reducerRun :: st.currentListeners.map .notify⟩

/-- `Array.prototype.indexOf`: index of the first occurrence, `-1` if absent. -/
def jsIndexOf (l : List ListenerId) (x : ListenerId) : Int :=
  let i := l.findIdx (· == x)
  if i < l.length then (i : Int) else -1

/-- The value passed to `subscribe`: a callable or any other JS value
(`undefined` when the argument is missing). -/
inductive ListenerArg where
  | fn (id : ListenerId)
  | value (v : JVal)

/-- `typeof fn === 'function'`. -/
def ListenerArg.isCallable : ListenerArg → Bool
  | .fn _ => true
  | .value _ => false

/-- JS truthiness of the subscribe argument (a function is always truthy). -/
def ListenerArg.truthy : ListenerArg → Bool
  | .fn _ => true
  | .value v => v.truthy

/-- `subscribe(fn)`: throw if `!fn || typeof fn !== 'function'`; push `fn`
when `indexOf(fn) < 0`; return the listener (the identity captured by the
returned `unsubscribe` closure, used by `unsubscribe` below). -/
def subscribe (st : StoreState) (fn : ListenerArg) :
    Except JSError (StoreState × ListenerId) :=
  if !fn.truthy || !fn.isCallable then
    .error ⟨"This function has been subscribed!"⟩
  else
    match fn with
    | .fn id =>
      let ls := st.currentListeners
      let ls' := if jsIndexOf ls id < 0 then ls ++ [id] else ls
      .ok ({ st with currentListeners := ls' }, id)
    | .value _ => .error ⟨"This function has been subscribed!"⟩

/-- The `unsubscribe` closure returned by `subscribe(fn)`:
`index = indexOf(fn); if (index > 0) splice(index, 1)`.  (Note the source
guard is `> 0`, not `>= 0`.) -/
def unsubscribe (st : StoreState) (id : ListenerId) : StoreState :=
  let index := jsIndexOf st.currentListeners id
  if index > 0 then
    { st with currentListeners := st.currentListeners.eraseIdx index.toNat }
  else st

/-- `replaceReducer(newReducer)`. -/
def replaceReducer (st : StoreState) (newReducer : Reducer) : StoreState :=
  { st with currentReducer := newReducer }

/-- `createStore(reducer, defaultState)` without an enhancer: initialize the
closed-over fields (`defaultState` is `undefined` when omitted).  The
enhancer path `enhancer(createStore)(reducer, defaultState)` is modelled with
`applyMiddleware` below. -/
def createStore (reducer : Reducer) (defaultState : JVal) : StoreState :=
  { currentState := defaultState
    currentReducer := reducer
    currentListeners := [] }

/-- `compose(...funcs) = funcs.reduce((a, b) => (...arg) => a(b(...arg)))`:
`reduce` without an initial value starts from the first element (and throws on
an empty array, hence `none`). -/
def compose {α : Type} (funcs : List (α → α)) : Option (α → α) :=
  match funcs with
  | [] => none
  | f :: fs => some (fs.foldl (fun a b => fun x => a (b x)) f)

/-- The spec's right-to-left nesting `f1(f2(...fn(x)))`. -/
def applySeq {α : Type} : List (α → α) → α → α
  | [], x => x
  | f :: fs, x => f (applySeq fs x)

/-- `combineReducers(reducers)`'s returned `combination(state, action)`:
`Object.keys(reducers)` in insertion order, `nextState[key] =
reducers[key](state[key], action)`, collected into a fresh object.  A JS
object is an insertion-ordered association list; slice reducers are total
JS functions (throwing reducers are not at issue in the combination claims). -/
def combination (reducers : List (String × (JVal → JVal → JVal)))
    (state : List (String × JVal)) (action : JVal) : List (String × JVal) :=
  reducers.map (fun kr => (kr.1, kr.2 (jsGet state kr.1) action))

/-! ### The middleware pipeline

`applyMiddleware(...middlewares)(createStore)(reducer, defaultState)` builds
the base store, applies each middleware to the `{getState, dispatch}` facade
(`const chain = middlewares.map(m => m(middlewareAPI))`), computes
`dispatch = compose(...chain)(store.dispatch)` and returns the object literal
`{ dispatch, ...store }`.

The embedding starts from the chain — each middleware already applied to the
facade, i.e. a `next => action => ...` function transforming one dispatch
function into another.  (No claim exercises the facade's recursive
`dispatch`, which in the source is a forward reference into the middleware
pipeline itself.)  The returned object literal is modelled with JS
property-assignment semantics, because the spread `...store` overwrites the
`dispatch` key written just before it. -/

/-- A dispatch-shaped function: what the base `dispatch` is and what every
chain element consumes and produces. -/
abbrev DispFn := StoreState → Action → DispatchOut

/-- One element of `chain`: a middleware after it has consumed the store
facade, awaiting `next`. -/
abbrev MiddlewareFn := DispFn → DispFn

/-- A property value of the store object returned by `createStore` /
`applyMiddleware`: the `dispatch` closure carries behaviour the claims
observe; the other three methods are opaque markers here. -/
inductive FieldV where
  | disp (d : DispFn)
  | fnGetState
  | fnSubscribe
  | fnReplaceReducer

/-- JS property assignment `o[k] = v`: overwrite in place if `k` exists
(keeping its position), otherwise append. -/
def objInsert (o : List (String × FieldV)) (k : String) (v : FieldV) :
    List (String × FieldV) :=
  if o.any (·.1 == k) then
    o.map (fun kv => if kv.1 == k then (k, v) else kv)
  else o ++ [(k, v)]

/-- A JS object literal (also covering spread): assign the listed properties
left to right into a fresh object. -/
def objLit (kvs : List (String × FieldV)) : List (String × FieldV) :=
  kvs.foldl (fun acc kv => objInsert acc kv.1 kv.2) []

/-- The own enumerable properties, in insertion order, of the object
`{ subscribe, dispatch, getState, replaceReducer }` that `createStore`
returns. -/
def storeFields : List (String × FieldV) :=
  [("subscribe", .fnSubscribe), ("dispatch", .disp dispatch),
   ("getState", .fnGetState), ("replaceReducer", .fnReplaceReducer)]

/-- `applyMiddleware(...middlewares)(createStore)(reducer, defaultState)`,
starting from the facade-applied chain: build the base store, compute
`dispatch = compose(...chain)(store.dispatch)` (`none` when the chain is
empty and `reduce` throws), and return the object literal
`{ dispatch, ...store }` together with the base store fields. -/
def applyMiddleware (chain : List MiddlewareFn) (reducer : Reducer)
    (defaultState : JVal) : Option (List (String × FieldV) × StoreState) :=
  let st := createStore reducer defaultState
  (compose chain).map (fun g =>
    let newDispatch := g dispatch
    (objLit (("dispatch", FieldV.disp newDispatch) :: storeFields), st))

/-- The middleware of the spec's threading scenario: log `"<name> enter"`,
call `next(action)`, log `"<name> exit"`. -/
def logMid (name : String) : MiddlewareFn := fun next => fun st a =>
  let out := next st a
  { out with
      events := Event.log (name ++ " enter") :: out.events
        ++ [Event.log (name ++ " exit")] }

/-- The spec's example reducer:
`counter(state = 0, action) => action.type === 'INC' ? state + 1 : state`. -/
def counter : Reducer := fun s a =>
  let s := match s with | .undefined => JVal.jnum 0 | _ => s
  let ty := jsGet (match a with | .jobj f => f | _ => []) "type"
  match s, ty with
  | .jnum n, .jstr t => if t = "INC" then .ok (.jnum (n + 1)) else .ok (.jnum n)
  | _, _ => .ok s

/-- The scenario action `{type: 'X'}`. -/
def actX : Action := .plain (.jobj [("type", .jstr "X")])

/-- Dispatch an action through the `dispatch` property of a store object
returned by `applyMiddleware` and observe the emitted events. -/
def eventsViaStoreObj (r : Option (List (String × FieldV) × StoreState))
    (a : Action) : List Event :=
  match r with
  | some (obj, st) =>
    match obj.lookup "dispatch" with
    | some (.disp d) => (d st a).events
    | _ => []
  | none => []

/-! ### `getState`: heap model of the state tree

`getState()` returns `JSON.parse(JSON.stringify(currentState))`.  To talk
about aliasing and external mutation, the state is placed in a heap of
addressable objects: `RVal` is a JS runtime value (primitive or object
reference), a heap maps each address to the field list of one object, and a
property write mutates one heap entry in place.

`JSON.stringify` serializes the tree reachable from a root and
`JSON.parse` rebuilds it from the text in freshly allocated objects, so their
composition is a deep copy into fresh addresses; it is embedded as the
fuel-bounded `copyVal` (fuel exhaustion plays the role of `stringify`
throwing on circular structures).  `readVal` is the serialized view itself —
the JSON value observable from a root — and is how two snapshots are compared
by value. -/

/-- A primitive JSON value stored directly in a field. -/
inductive Prim where
  | pnull
  | pbool (b : Bool)
  | pnum (n : Int)
  | pstr (s : String)
deriving DecidableEq

/-- A heap address. -/
abbrev Addr := Nat

/-- A JS runtime value: a primitive or a reference to a heap object. -/
inductive RVal where
  | prim (p : Prim)
  | ref (a : Addr)
deriving DecidableEq

/-- The fields of one heap object. -/
abbrev HObj := List (String × RVal)

/-- A heap: address `a` holds the object `h[a]`; allocation appends. -/
abbrev Heap := List HObj

/-- The JSON tree of a primitive. -/
def primJVal : Prim → JVal
  | .pnull => .jnull
  | .pbool b => .jbool b
  | .pnum n => .jnum n
  | .pstr s => .jstr s

/-- Serialize the fields of an object: each reference is dereferenced and
serialized recursively, consuming one unit of fuel per dereference. -/
def readFields : Nat → Heap → HObj → Option (List (String × JVal))
  | _, _, [] => some []
  | fuel, h, (k, .prim p) :: rest =>
    match readFields fuel h rest with
    | none => none
    | some r => some ((k, primJVal p) :: r)
  | 0, _, (_, .ref _) :: _ => none
  | fuel + 1, h, (k, .ref a) :: rest =>
    match h[a]? with
    | none => none
    | some o =>
      match readFields fuel h o with
      | none => none
      | some t =>
        match readFields (fuel + 1) h rest with
        | none => none
        | some r => some ((k, JVal.jobj t) :: r)
termination_by fuel _ o => (fuel, o.length)

/-- The JSON value observable from a root (`JSON.stringify`'s view). -/
def readVal (fuel : Nat) (h : Heap) : RVal → Option JVal
  | .prim p => some (primJVal p)
  | .ref a =>
    match fuel with
    | 0 => none
    | fuel + 1 =>
      match h[a]? with
      | none => none
      | some o =>
        match readFields fuel h o with
        | none => none
        | some t => some (JVal.jobj t)

/-- Deep-copy the fields of an object: primitives are copied directly; each
referenced object is copied recursively and re-allocated at a fresh address
(appended to the heap). -/
def copyFields : Nat → Heap → HObj → Option (Heap × HObj)
  | _, h, [] => some (h, [])
  | fuel, h, (k, .prim p) :: rest =>
    match copyFields fuel h rest with
    | none => none
    | some (h1, r) => some (h1, (k, .prim p) :: r)
  | 0, _, (_, .ref _) :: _ => none
  | fuel + 1, h, (k, .ref a) :: rest =>
    match h[a]? with
    | none => none
    | some o =>
      match copyFields fuel h o with
      | none => none
      | some (h1, o') =>
        match copyFields (fuel + 1) (h1 ++ [o']) rest with
        | none => none
        | some (h2, r) => some (h2, (k, RVal.ref h1.length) :: r)
termination_by fuel _ o => (fuel, o.length)

/-- Deep-copy a root value. -/
def copyVal (fuel : Nat) (h : Heap) : RVal → Option (Heap × RVal)
  | .prim p => some (h, .prim p)
  | .ref a =>
    match fuel with
    | 0 => none
    | fuel + 1 =>
      match h[a]? with
      | none => none
      | some o =>
        match copyFields fuel h o with
        | none => none
        | some (h1, o') => some (h1 ++ [o'], RVal.ref h1.length)

/-- `getState() = JSON.parse(JSON.stringify(currentState))`: a deep copy of
the current state root into fresh heap objects (`none` when the state is not
serializable within the fuel, mirroring `stringify` throwing on cycles). -/
def getState (fuel : Nat) (h : Heap) (v : RVal) : Option (Heap × RVal) :=
  copyVal fuel h v

/-- A JS property write `target[k] = w`, or any other in-place mutation of
the object at address `a`: the heap entry is replaced, nothing else moves. -/
def mutateAt (h : Heap) (a : Addr) (o : HObj) : Heap :=
  h.set a o

/-- Every reference in the value points below `n`. -/
def RVal.closedBelow (n : Nat) : RVal → Bool
  | .prim _ => true
  | .ref a => decide (a < n)

/-- Every reference in the object's fields points below `n`. -/
def objClosedBelow (n : Nat) (o : HObj) : Bool :=
  o.all (fun kv => kv.2.closedBelow n)

/-- A self-contained heap: every stored reference points to a valid
address. -/
def heapClosed (h : Heap) : Bool :=
  h.all (fun o => objClosedBelow h.length o)

/-- The value references no address below `n`. -/
def RVal.refsAtLeast (n : Nat) : RVal → Bool
  | .prim _ => true
  | .ref a => decide (n ≤ a)

/-- Every reference in the object's fields points at or above `n` (used to
state that a snapshot never points back into the live heap). -/
def objRefsAtLeast (n : Nat) (o : HObj) : Bool :=
  o.all (fun kv => kv.2.refsAtLeast n)

/-! ### Concrete scenario material used by witnesses and counter-evidence -/

/-- A user-supplied reducer that always throws. -/
def throwingReducer : Reducer := fun _ _ => .error ⟨"boom"⟩

/-- Run `subscribe(fn)` for a callable listener and keep the updated store
(callers in the repo always subscribe real functions, for which `subscribe`
cannot throw). -/
def afterSubscribe (st : StoreState) (id : ListenerId) : StoreState :=
  match subscribe st (.fn id) with
  | .ok (st', _) => st'
  | .error _ => st

/-- A store on the `counter` reducer with two listeners subscribed, listener
`0` first and listener `1` second. -/
def c2Store : StoreState :=
  afterSubscribe (afterSubscribe (createStore counter (.jnum 0)) 0) 1

/-- The action `{type: 'INC'}` of the spec's counter scenario. -/
def actInc : Action := .plain (.jobj [("type", .jstr "INC")])

/-- A `counter` store with the three listeners `0, 1, 2` subscribed in that
order. -/
def c9Store : StoreState :=
  afterSubscribe (afterSubscribe (afterSubscribe
    (createStore counter (.jnum 0)) 0) 1) 2

/-- A two-slice reducer mapping (the spec's independence scenario `{a: rA,
b: rB}`): slice `a` counts `INC` actions from `0`, slice `b` keeps its state. -/
def exampleReducers : List (String × (JVal → JVal → JVal)) :=
  [("a", fun s _ => match s with
      | .jnum n => .jnum (n + 1)
      | _ => .jnum 0),
   ("b", fun s _ => s)]

/-- A one-object heap `{x: 1}` with the state root pointing at it. -/
def exampleHeap : Heap := [[("x", RVal.prim (.pnum 1))]]

/-- The root of `exampleHeap`'s state. -/
def exampleRoot : RVal := .ref 0

/-! ## Theorems -/

/-- `reduce`'s left fold of the composition step applies the functions in
right-to-left nesting order: the accumulator wraps around the rest. -/
theorem foldl_comp_applySeq {α : Type} (fs : List (α → α)) (f : α → α) (x : α) :
    fs.foldl (fun a b => fun x => a (b x)) f x = f (applySeq fs x) := by
  induction fs generalizing f with
  | nil => rfl
  | cons g gs ih => simp [List.foldl, applySeq, ih]

/-- C8: for every non-empty sequence of functions `f :: fs` and every
argument, the composed function applies them in right-to-left nesting order
(`compose(f1, ..., fn)(x) = f1(f2(...fn(x)))`), and composing exactly one
function yields that very function. -/
theorem compose_spec {α : Type} (f : α → α) (fs : List (α → α)) (x : α) :
    (compose (f :: fs)).map (fun g => g x) = some (f (applySeq fs x)) ∧
    compose [f] = some f := by
  refine ⟨?_, rfl⟩
  simp [compose, foldl_comp_applySeq]

/-- C5: dispatching a callable (thunk) action invokes it exactly once (the
single `invokeThunk` effect), returns the sentinel `false` rather than an
action, and leaves the store — in particular `currentState` — unchanged. -/
theorem dispatch_thunk_spec (st : StoreState) (id : Nat) :
    dispatch st (.thunk id) = ⟨.ok .retFalse, st, [.invokeThunk id]⟩ := rfl

/-- C10: dispatching a callable (thunk) action notifies no listener and
leaves the listener collection and the installed reducer unchanged — the
thunk branch returns before the reducer call and the notification loop. -/
theorem dispatch_thunk_frame (st : StoreState) (id : Nat) :
    (dispatch st (.thunk id)).store.currentListeners = st.currentListeners ∧
    (dispatch st (.thunk id)).store.currentReducer = st.currentReducer ∧
    ∀ l, Event.notify l ∉ (dispatch st (.thunk id)).events := by
  refine ⟨rfl, rfl, fun l hl => ?_⟩
  simp [dispatch] at hl

/-- C6: when the installed reducer throws during a non-thunk dispatch, the
exception propagates to the caller as is, the prior `currentState` (indeed
the whole store) is left intact, and no listener is notified. -/
theorem dispatch_reducer_failure (st : StoreState) (v : JVal) (e : JSError)
    (hthrow : st.currentReducer st.currentState v = .error e) :
    dispatch st (.plain v) = ⟨.error e, st, []⟩ := by
  simp [dispatch, hthrow]

/-- Witness for C6: a reducer that throws `boom` makes dispatch propagate
`boom`, keep the store, and notify nobody. -/
theorem dispatch_reducer_failure_witness :
    dispatch (createStore throwingReducer .jnull) (.plain .jnull) =
      ⟨.error ⟨"boom"⟩, createStore throwingReducer .jnull, []⟩ :=
  dispatch_reducer_failure (createStore throwingReducer .jnull) .jnull ⟨"boom"⟩ rfl

/-- C7: `subscribe` throws its validation error exactly when the argument is
missing or not callable (`isOk` equals callability); a non-callable argument
produces the `InvalidArgument`-class error, and every callable argument is
accepted, returning the updated store together with the listener identity
captured by the `unsubscribe` closure. -/
theorem subscribe_invalid_argument_iff (st : StoreState) (arg : ListenerArg) :
    ((subscribe st arg).isOk = arg.isCallable) ∧
    (arg.isCallable = false →
      subscribe st arg = .error ⟨"This function has been subscribed!"⟩) ∧
    (∀ id, arg = .fn id → ∃ st', subscribe st arg = .ok (st', id)) := by
  cases arg with
  | fn id =>
    refine ⟨rfl, by intro h; simp [ListenerArg.isCallable] at h, ?_⟩
    intro id' h
    cases h
    exact ⟨_, rfl⟩
  | value v =>
    refine ⟨?_, fun _ => ?_, fun id h => by cases h⟩ <;>
      simp [subscribe, ListenerArg.truthy, ListenerArg.isCallable, Except.isOk,
        Except.toBool]

/-- Witness for C7: the missing argument (`undefined`) is rejected with the
validation error, and the callable listener `0` is accepted. -/
theorem subscribe_invalid_argument_iff_witness :
    (subscribe (createStore counter .undefined) (.value .undefined) =
      .error ⟨"This function has been subscribed!"⟩) ∧
    (∃ st', subscribe (createStore counter .undefined) (.fn 0) = .ok (st', 0)) :=
  ⟨(subscribe_invalid_argument_iff (createStore counter .undefined) (.value .undefined)).2.1 rfl,
   (subscribe_invalid_argument_iff (createStore counter .undefined) (.fn 0)).2.2 0 rfl⟩

/-- C4: the combined reducer returns a fresh mapping whose keys are exactly
the reducer mapping's keys (in order); every slice present in the reducer
mapping is `reducers[key](state[key], action)` — each reducer sees only its
own slice — and every key absent from the reducer mapping is dropped from
the output, whatever the incoming state holds. -/
theorem lookup_cons_self {β : Type} (k : String) (x : β) (l : List (String × β)) :
    ((k, x) :: l).lookup k = some x := by
  simp [List.lookup]

theorem lookup_cons_ne {β : Type} {k k0 : String} (x : β) (l : List (String × β))
    (h : k ≠ k0) : ((k0, x) :: l).lookup k = l.lookup k := by
  simp [List.lookup, beq_eq_false_iff_ne.mpr h]

theorem combination_spec (rs : List (String × (JVal → JVal → JVal)))
    (st : List (String × JVal)) (a : JVal) :
    ((combination rs st a).map Prod.fst = rs.map Prod.fst) ∧
    (∀ k r, rs.lookup k = some r →
      (combination rs st a).lookup k = some (r (jsGet st k) a)) ∧
    (∀ k, rs.lookup k = none → (combination rs st a).lookup k = none) := by
  induction rs with
  | nil =>
    exact ⟨rfl, fun k r h => by simp [List.lookup] at h, fun k _ => rfl⟩
  | cons kr rest ih =>
    obtain ⟨k0, r0⟩ := kr
    have hco : combination ((k0, r0) :: rest) st a =
        (k0, r0 (jsGet st k0) a) :: combination rest st a := rfl
    refine ⟨by simp [combination], ?_, ?_⟩
    · intro k r h
      by_cases hk : k = k0
      · subst hk
        rw [lookup_cons_self] at h
        injection h with h
        subst h
        rw [hco, lookup_cons_self]
      · rw [lookup_cons_ne _ _ hk] at h
        rw [hco, lookup_cons_ne _ _ hk]
        exact ih.2.1 k r h
    · intro k h
      by_cases hk : k = k0
      · subst hk
        rw [lookup_cons_self] at h
        cases h
      · rw [lookup_cons_ne _ _ hk] at h
        rw [hco, lookup_cons_ne _ _ hk]
        exact ih.2.2 k h

/-- Witness for C4: on `{a: countingReducer, b: keepReducer}` with state
`{a: 1, b: 'keep', c: null}`, slice `a` is stepped to `2` and the extra key
`c` is dropped. -/
theorem combination_spec_witness :
    (combination exampleReducers
        [("a", .jnum 1), ("b", .jstr "keep"), ("c", .jnull)] .jnull).lookup "a"
      = some (.jnum 2) ∧
    (combination exampleReducers
        [("a", .jnum 1), ("b", .jstr "keep"), ("c", .jnull)] .jnull).lookup "c"
      = none := by
  constructor
  · exact (combination_spec exampleReducers
      [("a", .jnum 1), ("b", .jstr "keep"), ("c", .jnull)] .jnull).2.1 "a" _ rfl
  · exact (combination_spec exampleReducers
      [("a", .jnum 1), ("b", .jstr "keep"), ("c", .jnull)] .jnull).2.2 "c" rfl

/-- C2 fails on the code (`if (index > 0)` in `unsubscribe` should be
`index >= 0`): with listeners `0` and `1` subscribed in that order, calling
the unsubscribe handle of the first listener removes nothing, so the next
dispatch still notifies listener `0`; the same handle does work for the
listener at index `1`. -/
theorem unsubscribe_first_listener_not_removed :
    c2Store.currentListeners = [0, 1] ∧
    (unsubscribe c2Store 0).currentListeners = [0, 1] ∧
    Event.notify 0 ∈ (dispatch (unsubscribe c2Store 0) actX).events ∧
    (unsubscribe c2Store 1).currentListeners = [0] := by
  refine ⟨rfl, rfl, ?_, rfl⟩
  show Event.notify 0 ∈ [Event.reducerRun, .notify 0, .notify 1]
  simp

/-- C1 fails on the code: `applyMiddleware` returns `{ dispatch, ...store }`,
and the spread overwrites the composed dispatch with the base store's raw
dispatch.  With the two logging middlewares of the scenario, the `dispatch`
property of the returned store is the base `dispatch` itself, dispatching
`{type:'X'}` through the returned store runs only the reducer and produces
no middleware log, while the composed dispatch the code just built (and then
lost) does produce the claimed
`m1 enter, m2 enter, reducer, m2 exit, m1 exit` order. -/
theorem applyMiddleware_spread_overrides_dispatch :
    (applyMiddleware [logMid "m1", logMid "m2"] counter (.jnum 0)).map
        (fun p => p.1.lookup "dispatch") = some (some (.disp dispatch)) ∧
    eventsViaStoreObj
        (applyMiddleware [logMid "m1", logMid "m2"] counter (.jnum 0)) actX
      = [.reducerRun] ∧
    ((compose [logMid "m1", logMid "m2"]).map
        (fun g => (g dispatch (createStore counter (.jnum 0)) actX).events))
      = some [.log "m1 enter", .log "m2 enter", .reducerRun,
          .log "m2 exit", .log "m1 exit"] :=
  ⟨rfl, rfl, rfl⟩

/-- `indexOf` on a list not containing the element is `-1`. -/
theorem jsIndexOf_not_mem (l : List ListenerId) (x : ListenerId) (h : x ∉ l) :
    jsIndexOf l x = -1 := by
  have hfi : l.findIdx (· == x) = l.length := by
    refine List.findIdx_eq_length.mpr ?_
    intro y hy
    simp only [beq_eq_false_iff_ne]
    exact fun e => h (e ▸ hy)
  simp [jsIndexOf, hfi]

/-- Subscribing a listener not yet registered appends it at the end. -/
theorem afterSubscribe_listeners (st : StoreState) (id : ListenerId)
    (h : id ∉ st.currentListeners) :
    (afterSubscribe st id).currentListeners = st.currentListeners ++ [id] := by
  simp [afterSubscribe, subscribe, ListenerArg.truthy, ListenerArg.isCallable,
    jsIndexOf_not_mem _ _ h]

/-- C9: in a store whose registered listeners are `[f1, f2, f3]` — exactly
what subscribing three fresh listeners in the order `f1, f2, f3` produces —
a successful (non-thunk, non-throwing) dispatch notifies them after the
reducer has run, in subscription order, and each exactly once. -/
theorem listener_fanout_order (r : Reducer) (s0 v s' : JVal) (st : StoreState)
    (f1 f2 f3 : ListenerId) (h12 : f1 ≠ f2) (h13 : f1 ≠ f3) (h23 : f2 ≠ f3)
    (hok : st.currentReducer st.currentState v = .ok s')
    (hst : st.currentListeners = [f1, f2, f3]) :
    (dispatch st (.plain v)).events =
      [.reducerRun, .notify f1, .notify f2, .notify f3] ∧
    (∀ f, f ∈ [f1, f2, f3] →
      ((dispatch st (.plain v)).events.count (.notify f)) = 1) ∧
    (afterSubscribe (afterSubscribe (afterSubscribe
        (createStore r s0) f1) f2) f3).currentListeners = [f1, f2, f3] := by
  have hev : (dispatch st (.plain v)).events =
      [.reducerRun, .notify f1, .notify f2, .notify f3] := by
    simp [dispatch, hok, hst]
  have l1 : (afterSubscribe (createStore r s0) f1).currentListeners = [f1] := by
    rw [afterSubscribe_listeners _ _ (by simp [createStore])]; rfl
  have l2 : (afterSubscribe (afterSubscribe
      (createStore r s0) f1) f2).currentListeners = [f1, f2] := by
    rw [afterSubscribe_listeners _ _
      (by rw [l1]; simp; exact fun e => h12 e.symm), l1]; rfl
  have l3 : (afterSubscribe (afterSubscribe (afterSubscribe
      (createStore r s0) f1) f2) f3).currentListeners = [f1, f2, f3] := by
    rw [afterSubscribe_listeners _ _
      (by rw [l2]; simp; exact ⟨fun e => h13 e.symm, fun e => h23 e.symm⟩), l2]; rfl
  refine ⟨hev, ?_, l3⟩
  intro f hf
  rw [hev]
  simp only [List.mem_cons, List.not_mem_nil, or_false] at hf
  rcases hf with rfl | rfl | rfl <;>
    simp [List.count_cons, h12, h13, h23, Ne.symm h12, Ne.symm h13, Ne.symm h23]

/-! ### Lemmas about the heap model of `getState` -/

/-- A successful address lookup still succeeds, with the same object, in any
extension of the heap. -/
theorem hobj_get_of_prefix {h hE : Heap} (hp : h <+: hE) {a : Nat} {o : HObj}
    (hg : h[a]? = some o) : hE[a]? = some o := by
  obtain ⟨tl, rfl⟩ := hp
  have ha : a < h.length := (List.getElem?_eq_some_iff.mp hg).1
  rw [List.getElem?_append_left ha]
  exact hg

/-- Below the length of a prefix, lookups agree with the prefix. -/
theorem get_prefix_eq {h hE : Heap} (hp : h <+: hE) {b : Nat}
    (hb : b < h.length) : hE[b]? = h[b]? := by
  obtain ⟨tl, rfl⟩ := hp
  exact List.getElem?_append_left hb

theorem rvalClosedBelow_mono {m mE : Nat} (hm : m ≤ mE) (v : RVal)
    (hv : RVal.closedBelow m v = true) : RVal.closedBelow mE v = true := by
  cases v with
  | prim p => rfl
  | ref a =>
    have ha : a < m := of_decide_eq_true hv
    exact decide_eq_true (Nat.lt_of_lt_of_le ha hm)

theorem objClosedBelow_cons {n : Nat} {k : String} {v : RVal} {rest : HObj} :
    objClosedBelow n ((k, v) :: rest) = true ↔
      RVal.closedBelow n v = true ∧ objClosedBelow n rest = true := by
  simp [objClosedBelow]

theorem objClosedBelow_mono {m mE : Nat} (hm : m ≤ mE) (o : HObj)
    (ho : objClosedBelow m o = true) : objClosedBelow mE o = true := by
  simp only [objClosedBelow, List.all_eq_true] at *
  exact fun kv hkv => rvalClosedBelow_mono hm _ (ho kv hkv)

theorem rvalRefsAtLeast_anti {m n : Nat} (hnm : n ≤ m) (v : RVal)
    (hv : RVal.refsAtLeast m v = true) : RVal.refsAtLeast n v = true := by
  cases v with
  | prim p => rfl
  | ref a =>
    have ha : m ≤ a := of_decide_eq_true hv
    exact decide_eq_true (Nat.le_trans hnm ha)

theorem objRefsAtLeast_anti {m n : Nat} (hnm : n ≤ m) (o : HObj)
    (ho : objRefsAtLeast m o = true) : objRefsAtLeast n o = true := by
  simp only [objRefsAtLeast, List.all_eq_true] at *
  exact fun kv hkv => rvalRefsAtLeast_anti hnm _ (ho kv hkv)

theorem objRefsAtLeast_cons {n : Nat} {k : String} {v : RVal} {rest : HObj} :
    objRefsAtLeast n ((k, v) :: rest) = true ↔
      RVal.refsAtLeast n v = true ∧ objRefsAtLeast n rest = true := by
  simp [objRefsAtLeast]

/-- The object at a valid address of a closed heap is closed. -/
theorem heapClosed_get {h : Heap} {a : Nat} {o : HObj}
    (hh : heapClosed h = true) (hg : h[a]? = some o) :
    objClosedBelow h.length o = true := by
  have hm := List.getElem?_mem hg
  simp only [heapClosed, List.all_eq_true] at hh
  exact hh o hm

/-- Appending one closed object keeps the heap closed. -/
theorem heapClosed_snoc {h : Heap} {o : HObj} (hh : heapClosed h = true)
    (ho : objClosedBelow h.length o = true) : heapClosed (h ++ [o]) = true := by
  simp only [heapClosed, List.all_eq_true] at *
  intro oo hoo
  rcases List.mem_append.mp hoo with hm | hm
  · exact objClosedBelow_mono (by simp) oo (hh oo hm)
  · simp only [List.mem_singleton] at hm
    subst hm
    exact objClosedBelow_mono (by simp) oo ho

/-- The deep copy only ever appends to the heap. -/
theorem copyFields_prefix (fuel : Nat) (h : Heap) (o : HObj) :
    ∀ hr or, copyFields fuel h o = some (hr, or) → h <+: hr := by
  induction fuel, h, o using copyFields.induct with
  | case1 fuel h =>
    intro hr or hc
    simp [copyFields] at hc
    exact hc.1 ▸ List.prefix_refl h
  | case2 fuel h k p rest hnone ih =>
    intro hr or hc
    simp [copyFields, hnone] at hc
  | case3 fuel h k p rest h1 r hsome ih =>
    intro hr or hc
    simp [copyFields, hsome] at hc
    exact hc.1 ▸ ih h1 r hsome
  | case4 h k a rest =>
    intro hr or hc
    simp [copyFields] at hc
  | case5 fuel h k a rest hget =>
    intro hr or hc
    simp [copyFields, hget] at hc
  | case6 fuel h k a rest o hget hnone ih =>
    intro hr or hc
    simp [copyFields, hget, hnone] at hc
  | case7 fuel h k a rest o hget h1 o1 hc1 hnone ih1 ih2 =>
    intro hr or hc
    simp [copyFields, hget, hc1, hnone] at hc
  | case8 fuel h k a rest o hget h1 o1 hc1 h2 r hc2 ih1 ih2 =>
    intro hr or hc
    simp [copyFields, hget, hc1, hc2] at hc
    refine hc.1 ▸ ((ih1 h1 o1 hc1).trans ?_)
    exact (List.prefix_append h1 [o1]).trans (ih2 h2 r hc2)

/-- Serialization only looks at heap entries below `n` when the root object
and those entries are closed below `n`: two heaps agreeing below `n`
serialize such a root identically. -/
theorem readFields_agree (n : Nat) (hB : Heap) (fuel : Nat) (hA : Heap)
    (o : HObj) :
    (∀ b, b < n → hA[b]? = hB[b]?) →
    (∀ b oo, b < n → hA[b]? = some oo → objClosedBelow n oo = true) →
    objClosedBelow n o = true →
    readFields fuel hA o = readFields fuel hB o := by
  induction fuel, hA, o using readFields.induct with
  | case1 fuel h => intro _ _ _; simp only [readFields]
  | case2 fuel h k p rest hnone ih =>
    intro hget hobj ho
    have hr := ih hget hobj (objClosedBelow_cons.mp ho).2
    simp only [readFields, ← hr, hnone]
  | case3 fuel h k p rest r hsome ih =>
    intro hget hobj ho
    have hr := ih hget hobj (objClosedBelow_cons.mp ho).2
    simp only [readFields, ← hr, hsome]
  | case4 h k a rest => intro _ _ _; simp only [readFields]
  | case5 fuel h k a rest hga =>
    intro hget hobj ho
    have ha : a < n := of_decide_eq_true (objClosedBelow_cons.mp ho).1
    have hg2 : hB[a]? = none := (hget a ha).symm.trans hga
    simp only [readFields, hga, hg2]
  | case6 fuel h k a rest o hga hnone ih =>
    intro hget hobj ho
    have ha : a < n := of_decide_eq_true (objClosedBelow_cons.mp ho).1
    have hg2 : hB[a]? = some o := (hget a ha).symm.trans hga
    have hro := ih hget hobj (hobj a o ha hga)
    simp only [readFields, hga, hg2, ← hro, hnone]
  | case7 fuel h k a rest o hga t hsome hrnone ih1 ih2 =>
    intro hget hobj ho
    have ha : a < n := of_decide_eq_true (objClosedBelow_cons.mp ho).1
    have hg2 : hB[a]? = some o := (hget a ha).symm.trans hga
    have hro := ih1 hget hobj (hobj a o ha hga)
    have hrr := ih2 hget hobj (objClosedBelow_cons.mp ho).2
    simp only [readFields, hga, hg2, ← hro, hsome, ← hrr, hrnone]
  | case8 fuel h k a rest o hga t hsome r hrsome ih1 ih2 =>
    intro hget hobj ho
    have ha : a < n := of_decide_eq_true (objClosedBelow_cons.mp ho).1
    have hg2 : hB[a]? = some o := (hget a ha).symm.trans hga
    have hro := ih1 hget hobj (hobj a o ha hga)
    have hrr := ih2 hget hobj (objClosedBelow_cons.mp ho).2
    simp only [readFields, hga, hg2, ← hro, hsome, ← hrr, hrsome]

/-- A successful serialization also succeeds, with the same result, in any
extension of the heap. -/
theorem readFields_extend (hE : Heap) (fuel : Nat) (h : Heap) (o : HObj) :
    h <+: hE → ∀ t, readFields fuel h o = some t →
      readFields fuel hE o = some t := by
  induction fuel, h, o using readFields.induct with
  | case1 fuel h =>
    intro hp t ht
    simp only [readFields] at ht
    simp only [readFields]
    exact ht
  | case2 fuel h k p rest hnone ih =>
    intro hp t ht
    simp [readFields, hnone] at ht
  | case3 fuel h k p rest r hsome ih =>
    intro hp t ht
    simp only [readFields, hsome] at ht
    simp only [readFields, ih hp r hsome]
    exact ht
  | case4 h k a rest =>
    intro hp t ht
    simp [readFields] at ht
  | case5 fuel h k a rest hga =>
    intro hp t ht
    simp [readFields, hga] at ht
  | case6 fuel h k a rest o hga hnone ih =>
    intro hp t ht
    simp [readFields, hga, hnone] at ht
  | case7 fuel h k a rest o hga t hsome hrnone ih1 ih2 =>
    intro hp tt ht
    simp [readFields, hga, hsome, hrnone] at ht
  | case8 fuel h k a rest o hga t hsome r hrsome ih1 ih2 =>
    intro hp tt ht
    simp only [readFields, hga, hsome, hrsome] at ht
    simp only [readFields, hobj_get_of_prefix hp hga, ih1 hp t hsome,
      ih2 hp r hrsome]
    exact ht

/-- The deep copy preserves heap closedness, and the copied field list is
valid in the output heap. -/
theorem copyFields_closed (fuel : Nat) (h : Heap) (o : HObj) :
    ∀ hr or, heapClosed h = true → objClosedBelow h.length o = true →
      copyFields fuel h o = some (hr, or) →
      heapClosed hr = true ∧ objClosedBelow hr.length or = true := by
  induction fuel, h, o using copyFields.induct with
  | case1 fuel h =>
    intro hr or hh ho hc
    simp [copyFields] at hc
    obtain ⟨rfl, rfl⟩ := hc
    exact ⟨hh, rfl⟩
  | case2 fuel h k p rest hnone ih =>
    intro hr or hh ho hc
    simp [copyFields, hnone] at hc
  | case3 fuel h k p rest h1 r hsome ih =>
    intro hr or hh ho hc
    simp [copyFields, hsome] at hc
    obtain ⟨rfl, rfl⟩ := hc
    obtain ⟨hh1, hr1⟩ := ih h1 r hh (objClosedBelow_cons.mp ho).2 hsome
    exact ⟨hh1, objClosedBelow_cons.mpr ⟨rfl, hr1⟩⟩
  | case4 h k a rest =>
    intro hr or hh ho hc
    simp [copyFields] at hc
  | case5 fuel h k a rest hget =>
    intro hr or hh ho hc
    simp [copyFields, hget] at hc
  | case6 fuel h k a rest o hget hnone ih =>
    intro hr or hh ho hc
    simp [copyFields, hget, hnone] at hc
  | case7 fuel h k a rest o hget h1 o1 hc1 hnone ih1 ih2 =>
    intro hr or hh ho hc
    simp [copyFields, hget, hc1, hnone] at hc
  | case8 fuel h k a rest o hget h1 o1 hc1 h2 r hc2 ih1 ih2 =>
    intro hr or hh ho hc
    simp [copyFields, hget, hc1, hc2] at hc
    obtain ⟨rfl, rfl⟩ := hc
    obtain ⟨hv, hrest⟩ := objClosedBelow_cons.mp ho
    have hclo : objClosedBelow h.length o = true := heapClosed_get hh hget
    obtain ⟨hh1, ho1⟩ := ih1 h1 o1 hh hclo hc1
    have hp1 : h <+: h1 := copyFields_prefix fuel h o h1 o1 hc1
    have hhm : heapClosed (h1 ++ [o1]) = true := heapClosed_snoc hh1 ho1
    have hlen1 : h.length ≤ (h1 ++ [o1]).length := by
      have := hp1.length_le
      simp
      omega
    obtain ⟨hh2, hr2⟩ := ih2 h2 r hhm (objClosedBelow_mono hlen1 rest hrest) hc2
    have hp2 : (h1 ++ [o1]) <+: h2 :=
      copyFields_prefix (fuel + 1) (h1 ++ [o1]) rest h2 r hc2
    refine ⟨hh2, objClosedBelow_cons.mpr ⟨?_, hr2⟩⟩
    have hlt : h1.length + 1 ≤ h2.length := by
      have := hp2.length_le
      simp at this
      omega
    exact decide_eq_true (Nat.lt_of_lt_of_le (Nat.lt_succ_self _) hlt)

/-- Splitting membership in a dropped suffix along a prefix. -/
theorem mem_drop_of_prefix {hA hB : Heap} (hp : hA <+: hB) (n : Nat)
    (hn : n ≤ hA.length) {oo : HObj} (hm : oo ∈ hB.drop n) :
    oo ∈ hA.drop n ∨ oo ∈ hB.drop hA.length := by
  obtain ⟨tl, rfl⟩ := hp
  rw [List.drop_append_of_le_length hn] at hm
  rcases List.mem_append.mp hm with hm | hm
  · exact Or.inl hm
  · right
    rw [List.drop_left]
    exact hm

/-- Every object the deep copy allocates, and the copied field list itself,
reference only addresses at or above the original heap's length: the
snapshot never points back into the pre-existing objects. -/
theorem copyFields_fresh (fuel : Nat) (h : Heap) (o : HObj) :
    ∀ hr or, copyFields fuel h o = some (hr, or) →
      (∀ oo, oo ∈ hr.drop h.length → objRefsAtLeast h.length oo = true) ∧
      objRefsAtLeast h.length or = true := by
  induction fuel, h, o using copyFields.induct with
  | case1 fuel h =>
    intro hr or hc
    simp [copyFields] at hc
    obtain ⟨rfl, rfl⟩ := hc
    refine ⟨fun oo hoo => ?_, rfl⟩
    simp [List.drop_length] at hoo
  | case2 fuel h k p rest hnone ih =>
    intro hr or hc
    simp [copyFields, hnone] at hc
  | case3 fuel h k p rest h1 r hsome ih =>
    intro hr or hc
    simp [copyFields, hsome] at hc
    obtain ⟨rfl, rfl⟩ := hc
    obtain ⟨hreg, hout⟩ := ih h1 r hsome
    exact ⟨hreg, objRefsAtLeast_cons.mpr ⟨rfl, hout⟩⟩
  | case4 h k a rest =>
    intro hr or hc
    simp [copyFields] at hc
  | case5 fuel h k a rest hget =>
    intro hr or hc
    simp [copyFields, hget] at hc
  | case6 fuel h k a rest o hget hnone ih =>
    intro hr or hc
    simp [copyFields, hget, hnone] at hc
  | case7 fuel h k a rest o hget h1 o1 hc1 hnone ih1 ih2 =>
    intro hr or hc
    simp [copyFields, hget, hc1, hnone] at hc
  | case8 fuel h k a rest o hget h1 o1 hc1 h2 r hc2 ih1 ih2 =>
    intro hr or hc
    simp [copyFields, hget, hc1, hc2] at hc
    obtain ⟨rfl, rfl⟩ := hc
    obtain ⟨hreg1, hout1⟩ := ih1 h1 o1 hc1
    obtain ⟨hreg2, hout2⟩ := ih2 h2 r hc2
    have hp1 : h <+: h1 := copyFields_prefix fuel h o h1 o1 hc1
    have hp2 : (h1 ++ [o1]) <+: h2 :=
      copyFields_prefix (fuel + 1) (h1 ++ [o1]) rest h2 r hc2
    have hl1 : h.length ≤ h1.length := hp1.length_le
    have hl1s : h.length ≤ (h1 ++ [o1]).length := by simp; omega
    constructor
    · intro oo hoo
      rcases mem_drop_of_prefix hp2 h.length hl1s hoo with hin | hin
      · rw [List.drop_append_of_le_length hl1] at hin
        rcases List.mem_append.mp hin with hin2 | hin2
        · exact hreg1 oo hin2
        · simp only [List.mem_singleton] at hin2
          subst hin2
          exact hout1
      · exact objRefsAtLeast_anti hl1s oo (hreg2 oo hin)
    · exact objRefsAtLeast_cons.mpr
        ⟨decide_eq_true hl1, objRefsAtLeast_anti hl1s r hout2⟩

/-- Round trip: where the deep copy succeeds, serializing the original
fields in the original heap and serializing the copied fields in the
extended heap produce the same JSON value. -/
theorem copyFields_read (fuel : Nat) (h : Heap) (o : HObj) :
    ∀ hr or, heapClosed h = true → objClosedBelow h.length o = true →
      copyFields fuel h o = some (hr, or) →
      ∃ t, readFields fuel h o = some t ∧ readFields fuel hr or = some t := by
  induction fuel, h, o using copyFields.induct with
  | case1 fuel h =>
    intro hr or hh ho hc
    simp [copyFields] at hc
    obtain ⟨rfl, rfl⟩ := hc
    exact ⟨[], by simp [readFields], by simp [readFields]⟩
  | case2 fuel h k p rest hnone ih =>
    intro hr or hh ho hc
    simp [copyFields, hnone] at hc
  | case3 fuel h k p rest h1 r hsome ih =>
    intro hr or hh ho hc
    simp [copyFields, hsome] at hc
    obtain ⟨rfl, rfl⟩ := hc
    obtain ⟨ts, hts1, hts2⟩ := ih h1 r hh (objClosedBelow_cons.mp ho).2 hsome
    refine ⟨(k, primJVal p) :: ts, ?_, ?_⟩
    · simp only [readFields, hts1]
    · simp only [readFields, hts2]
  | case4 h k a rest =>
    intro hr or hh ho hc
    simp [copyFields] at hc
  | case5 fuel h k a rest hget =>
    intro hr or hh ho hc
    simp [copyFields, hget] at hc
  | case6 fuel h k a rest o hget hnone ih =>
    intro hr or hh ho hc
    simp [copyFields, hget, hnone] at hc
  | case7 fuel h k a rest o hget h1 o1 hc1 hnone ih1 ih2 =>
    intro hr or hh ho hc
    simp [copyFields, hget, hc1, hnone] at hc
  | case8 fuel h k a rest o hget h1 o1 hc1 h2 r hc2 ih1 ih2 =>
    intro hr or hh ho hc
    simp [copyFields, hget, hc1, hc2] at hc
    obtain ⟨rfl, rfl⟩ := hc
    obtain ⟨hv, hrest⟩ := objClosedBelow_cons.mp ho
    have hclo : objClosedBelow h.length o = true := heapClosed_get hh hget
    obtain ⟨t0, hr0, hr0c⟩ := ih1 h1 o1 hh hclo hc1
    obtain ⟨hh1, ho1⟩ := copyFields_closed fuel h o h1 o1 hh hclo hc1
    have hp1 : h <+: h1 := copyFields_prefix fuel h o h1 o1 hc1
    have hhm : heapClosed (h1 ++ [o1]) = true := heapClosed_snoc hh1 ho1
    have hlen1 : h.length ≤ (h1 ++ [o1]).length := by
      have := hp1.length_le
      simp
      omega
    obtain ⟨ts, hrs, hrsc⟩ :=
      ih2 h2 r hhm (objClosedBelow_mono hlen1 rest hrest) hc2
    have hp2 : (h1 ++ [o1]) <+: h2 :=
      copyFields_prefix (fuel + 1) (h1 ++ [o1]) rest h2 r hc2
    have hagree : readFields (fuel + 1) (h1 ++ [o1]) rest =
        readFields (fuel + 1) h rest := by
      refine readFields_agree h.length h (fuel + 1) (h1 ++ [o1]) rest ?_ ?_ hrest
      · intro b hb
        exact get_prefix_eq (hp1.trans (List.prefix_append h1 [o1])) hb
      · intro b oo hb hbo
        rw [get_prefix_eq (hp1.trans (List.prefix_append h1 [o1])) hb] at hbo
        exact heapClosed_get hh hbo
    have hrsh : readFields (fuel + 1) h rest = some ts := hagree ▸ hrs
    refine ⟨(k, JVal.jobj t0) :: ts, ?_, ?_⟩
    · simp only [readFields, hget, hr0, hrsh]
    · have hg2 : h2[h1.length]? = some o1 :=
        hobj_get_of_prefix hp2 (List.getElem?_concat_length h1 o1)
      have hrc2 : readFields fuel h2 o1 = some t0 :=
        readFields_extend h2 fuel h1 o1
          ((List.prefix_append h1 [o1]).trans hp2) t0 hr0c
      simp only [readFields, hg2, hrc2, hrsc]

/-- C3: `getState() = JSON.parse(JSON.stringify(currentState))` returns an
independent deep copy of the current state.  Where it succeeds (the state is
serializable within the fuel): (1) the live heap objects are untouched;
(2) the returned root never aliases a live address; (3) no object of the
snapshot references a live address, so the snapshot is fully disjoint from
the live state; (4) the snapshot reads back as exactly the serialized value
of the current state; and (5) mutating any object outside the original heap
— in particular any object of the returned snapshot — leaves the value read
from the live state root, hence the value a subsequent `getState` returns,
unchanged. -/
theorem getState_snapshot_isolation (fuel : Nat) (h h1 : Heap) (v c : RVal)
    (hheap : heapClosed h = true)
    (hv : RVal.closedBelow h.length v = true)
    (hgs : getState fuel h v = some (h1, c)) :
    (∀ b, b < h.length → h1[b]? = h[b]?) ∧
    (∀ a, c = .ref a → h.length ≤ a) ∧
    (∀ b oo, h.length ≤ b → h1[b]? = some oo →
      objRefsAtLeast h.length oo = true) ∧
    (∃ t, readVal fuel h v = some t ∧ readVal fuel h1 c = some t) ∧
    (∀ b oo, h.length ≤ b →
      readVal fuel (mutateAt h1 b oo) v = readVal fuel h v) := by
  cases v with
  | prim p =>
    simp [getState, copyVal] at hgs
    obtain ⟨rfl, rfl⟩ := hgs
    refine ⟨fun b hb => rfl, ?_, ?_, ?_, ?_⟩
    · intro a2 ha2
      cases ha2
    · intro b oo hb hbo
      have hlt : b < h.length := (List.getElem?_eq_some_iff.mp hbo).1
      exact absurd hlt (Nat.not_lt.mpr hb)
    · exact ⟨primJVal p, rfl, rfl⟩
    · intro b oo hb
      rfl
  | ref a =>
    have ha : a < h.length := of_decide_eq_true hv
    cases fuel with
    | zero => simp [getState, copyVal] at hgs
    | succ fuel =>
      cases hget : h[a]? with
      | none => simp [getState, copyVal, hget] at hgs
      | some o =>
        cases hcf : copyFields fuel h o with
        | none => simp [getState, copyVal, hget, hcf] at hgs
        | some pr =>
          obtain ⟨hh1, o1⟩ := pr
          simp [getState, copyVal, hget, hcf] at hgs
          obtain ⟨rfl, rfl⟩ := hgs
          have hclo : objClosedBelow h.length o = true := heapClosed_get hheap hget
          have hp1 : h <+: hh1 := copyFields_prefix fuel h o hh1 o1 hcf
          obtain ⟨hhc1, ho1⟩ := copyFields_closed fuel h o hh1 o1 hheap hclo hcf
          obtain ⟨t0, hr0, hr0c⟩ := copyFields_read fuel h o hh1 o1 hheap hclo hcf
          obtain ⟨hfr, hfo⟩ := copyFields_fresh fuel h o hh1 o1 hcf
          have hpe : h <+: hh1 ++ [o1] := hp1.trans (List.prefix_append hh1 [o1])
          have hl1 : h.length ≤ hh1.length := hp1.length_le
          refine ⟨?_, ?_, ?_, ?_, ?_⟩
          · intro b hb
            exact get_prefix_eq hpe hb
          · intro a2 ha2
            injection ha2 with he
            exact he ▸ hl1
          · intro b oo hb hbo
            have heq : h.length + (b - h.length) = b := by omega
            have hdg : ((hh1 ++ [o1]).drop h.length)[b - h.length]? = some oo := by
              rw [List.getElem?_drop, heq]
              exact hbo
            have hmem : oo ∈ (hh1 ++ [o1]).drop h.length := List.getElem?_mem hdg
            rw [List.drop_append_of_le_length hl1] at hmem
            rcases List.mem_append.mp hmem with hm | hm
            · exact hfr oo hm
            · simp only [List.mem_singleton] at hm
              subst hm
              exact hfo
          · refine ⟨JVal.jobj t0, ?_, ?_⟩
            · simp only [readVal, hget, hr0]
            · have hg2 : (hh1 ++ [o1])[hh1.length]? = some o1 :=
                List.getElem?_concat_length hh1 o1
              have hrc : readFields fuel (hh1 ++ [o1]) o1 = some t0 :=
                readFields_extend (hh1 ++ [o1]) fuel hh1 o1
                  (List.prefix_append hh1 [o1]) t0 hr0c
              simp only [readVal, hg2, hrc]
          · intro b oo hb
            have hset : ∀ x, x < h.length →
                (mutateAt (hh1 ++ [o1]) b oo)[x]? = h[x]? := by
              intro x hx
              have hbx : b ≠ x := by omega
              simp only [mutateAt]
              rw [List.getElem?_set_ne hbx]
              exact get_prefix_eq hpe hx
            have hsa : (mutateAt (hh1 ++ [o1]) b oo)[a]? = some o := by
              rw [hset a ha]
              exact hget
            have hagree : readFields fuel (mutateAt (hh1 ++ [o1]) b oo) o =
                readFields fuel h o := by
              refine readFields_agree h.length h fuel
                (mutateAt (hh1 ++ [o1]) b oo) o hset ?_ hclo
              intro x oo2 hx hxo
              rw [hset x hx] at hxo
              exact heapClosed_get hheap hxo
            simp only [readVal, hsa, hagree, hr0, hget]

/-- Witness for C3: the one-object heap `{x: 1}`; taking a snapshot, then
clobbering the snapshot's (fresh) object at address `1`, leaves the value
read from the live root unchanged. -/
theorem getState_snapshot_isolation_witness :
    heapClosed exampleHeap = true ∧
    readVal 1 (mutateAt (exampleHeap ++ [[("x", RVal.prim (.pnum 1))]]) 1 [])
      exampleRoot = readVal 1 exampleHeap exampleRoot := by
  have hgs : getState 1 exampleHeap exampleRoot =
      some (exampleHeap ++ [[("x", RVal.prim (.pnum 1))]], .ref 1) := by
    simp [getState, copyVal, copyFields, exampleHeap, exampleRoot]
  exact ⟨rfl, (getState_snapshot_isolation 1 exampleHeap
    (exampleHeap ++ [[("x", RVal.prim (.pnum 1))]]) exampleRoot (.ref 1)
    rfl rfl hgs).2.2.2.2 1 [] (by decide)⟩

/-- Witness for C9: listeners `0, 1, 2` on the `counter` store, dispatching
`{type:'INC'}`. -/
theorem listener_fanout_order_witness :
    (dispatch c9Store actInc).events =
      [.reducerRun, .notify 0, .notify 1, .notify 2] ∧
    (dispatch c9Store actInc).events.count (.notify 0) = 1 := by
  have h := listener_fanout_order counter (.jnum 0) (.jobj [("type", .jstr "INC")])
    (.jnum 1) c9Store 0 1 2 (by decide) (by decide) (by decide) rfl rfl
  exact ⟨h.1, h.2.1 0 (by simp)⟩

end Uxunk
